import Mathlib

/-!
# Verification of the Convolution engine (`src/convolution_ops.c`, `src/signal_generation.c`)

Shallow embedding of the numeric core of the repository: the `Signal` data
model, the three convolution operations (`convolve`, `convolve_circular`,
`convolve_fft`), the recursive radix-2 FFT/IFFT (`fft_recursive`,
`ifft_recursive`) and the spectral analysis entry point (`compute_fft`).

Modelling conventions:
* C `double` arithmetic is idealized as real arithmetic (`ℝ`); the C macro
  `PI` (a decimal approximation) is idealized as `Real.pi`, and `cos`/`sin`
  from `math.h` as `Real.cos`/`Real.sin`.  The C `Complex` struct (two
  `double` fields with the explicit product formula
  `(a.re*b.re - a.im*b.im, a.re*b.im + a.im*b.re)`) is embedded as Mathlib's
  `ℂ`, whose multiplication is the same formula.
* Nullable `Signal*` arguments/results are embedded as `Option Signal`;
  a `NULL` argument is `none`.  Out-of-memory failures of `malloc`/`calloc`
  are idealized as always succeeding, with one exception: `create_signal`
  called with a negative length passes a negative count to `calloc` (which
  converts it to an astronomically large `size_t` and necessarily fails), so
  `create_signal` is embedded as failing exactly on negative lengths.
* In-place mutation of the sample buffers is embedded by value passing:
  each C function that fills a freshly allocated buffer becomes a Lean
  function producing the final contents of that buffer.
-/

open Finset

set_option autoImplicit false

/-- The `SignalType` enum of `include/convolution.h`. -/
inductive SignalType
  | sine | square | triangle | sawtooth | noise | impulse | gaussian | custom
  deriving DecidableEq, Repr

/-- The `Signal` struct of `include/convolution.h`: sample buffer, sampling
rate, derived duration, type tag and display name.  The `length` field of the
struct is represented by `data.length`. -/
structure Signal where
  data : List ℝ
  sample_rate : ℝ
  duration : ℝ
  type : SignalType
  name : String

/-- `create_signal` from `src/signal_generation.c`: allocates a zero-filled
sample buffer of the given length.  A negative length makes the `calloc` call
fail (negative `int` converted to a huge `size_t`), hence `none`. -/
noncomputable def create_signal (length : ℤ) (sample_rate : ℝ) : Option Signal :=
  if length < 0 then none
  else some
    { data := List.replicate length.toNat 0
      sample_rate := sample_rate
      duration := (length : ℝ) / sample_rate
      type := SignalType.custom
      name := "Untitled Signal" }

/-- One output sample of `convolve` (`src/convolution_ops.c`, lines 19-32):
the inner loop over `k ∈ [k_min, k_max]` with the bounds-check guard of
line 28 kept verbatim. -/
noncomputable def convEntry (a b : List ℝ) (n : ℤ) : ℝ :=
  ∑ k in Finset.Icc (if (b.length : ℤ) - 1 ≤ n then n - b.length + 1 else 0)
      (if n < (a.length : ℤ) then n else (a.length : ℤ) - 1),
    if 0 ≤ n - k ∧ n - k < (b.length : ℤ) ∧ 0 ≤ k ∧ k < (a.length : ℤ) then
      a.getD k.toNat 0 * b.getD (n - k).toNat 0
    else 0

/-- `convolve` from `src/convolution_ops.c` (lines 4-35): linear convolution,
output length `N + M - 1`, sample rate taken from the first argument. -/
noncomputable def convolve (osignal1 osignal2 : Option Signal) : Option Signal := do
  let signal1 ← osignal1
  let signal2 ← osignal2
  let output_length : ℤ := (signal1.data.length : ℤ) + (signal2.data.length : ℤ) - 1
  let result ← create_signal output_length signal1.sample_rate
  pure { result with
    type := SignalType.custom
    name := "Conv(" ++ signal1.name ++ " * " ++ signal2.name ++ ")"
    data := (List.range output_length.toNat).map fun n : ℕ =>
      convEntry signal1.data signal2.data (n : ℤ) }

/-- One output sample of `convolve_circular` (`src/convolution_ops.c`,
lines 54-67): the two zero-padding conditionals of lines 59 and 63 are kept
verbatim.  The C index `(n - k + length) % length` is written
`(n + length - k) % length`, which is the same integer because `k < length`
makes `n - k + length` positive. -/
noncomputable def circEntry (a b : List ℝ) (n : ℕ) : ℝ :=
  ∑ k in Finset.range (max a.length b.length),
    (if k < a.length then a.getD k 0 else 0) *
    (if (n + max a.length b.length - k) % max a.length b.length < b.length then
      b.getD ((n + max a.length b.length - k) % max a.length b.length) 0
    else 0)

/-- `convolve_circular` from `src/convolution_ops.c` (lines 38-70): circular
convolution at length `max N M`. -/
noncomputable def convolve_circular (osignal1 osignal2 : Option Signal) : Option Signal := do
  let signal1 ← osignal1
  let signal2 ← osignal2
  let length : ℤ := (max signal1.data.length signal2.data.length : ℕ)
  let result ← create_signal length signal1.sample_rate
  pure { result with
    type := SignalType.custom
    name := "CircConv(" ++ signal1.name ++ " * " ++ signal2.name ++ ")"
    data := (List.range length.toNat).map fun n => circEntry signal1.data signal2.data n }

/-- The loop body of `next_power_of_2` (`src/convolution_ops.c`, lines 73-79):
`while (power < n) power *= 2`.  The loop variable starts at `1` and doubles,
so it stays positive; the positivity is carried in the argument type to
justify termination. -/
def npow2Loop (n : ℕ) (p : {p : ℕ // 0 < p}) : ℕ :=
  if p.1 < n then npow2Loop n ⟨p.1 + p.1, by omega⟩ else p.1
termination_by n - p.1
decreasing_by
  have := p.2
  omega

/-- `next_power_of_2` from `src/convolution_ops.c`: smallest power of two
reached by doubling from `1` that is `≥ n`. -/
def next_power_of_2 (n : ℕ) : ℕ := npow2Loop n ⟨1, Nat.one_pos⟩

/-- The twiddle factor of `fft_recursive` (`src/convolution_ops.c`,
lines 100-101): `{cos(-2*PI*k/n), sin(-2*PI*k/n)}`. -/
noncomputable def twiddle (n k : ℕ) : ℂ :=
  ⟨Real.cos (-2 * Real.pi * k / n), Real.sin (-2 * Real.pi * k / n)⟩

/-- The even-indexed half extracted by `fft_recursive` (lines 89-92):
`even[i] = data[2*i]` for `i < n/2`. -/
noncomputable def evens (l : List ℂ) : List ℂ :=
  (List.range (l.length / 2)).map fun i => l.getD (2 * i) 0

/-- The odd-indexed half extracted by `fft_recursive` (lines 89-92):
`odd[i] = data[2*i + 1]` for `i < n/2`. -/
noncomputable def odds (l : List ℂ) : List ℂ :=
  (List.range (l.length / 2)).map fun i => l.getD (2 * i + 1) 0

/-- The combine loop of `fft_recursive` (lines 99-114): the first `n/2`
output slots receive `even[k] + W*odd[k]`, the second `n/2` slots receive
`even[k] - W*odd[k]`. -/
noncomputable def fftCombine (n : ℕ) (ev od : List ℂ) : List ℂ :=
  ((List.range (n / 2)).map fun k => ev.getD k 0 + twiddle n k * od.getD k 0) ++
  ((List.range (n / 2)).map fun k => ev.getD k 0 - twiddle n k * od.getD k 0)

/-- `fft_recursive` from `src/convolution_ops.c` (lines 82-118), as a function
from the initial to the final contents of the `data` buffer. -/
noncomputable def fftRec (l : List ℂ) : List ℂ :=
  if l.length ≤ 1 then l
  else fftCombine l.length (fftRec (evens l)) (fftRec (odds l))
termination_by l.length
decreasing_by
  · simp only [evens, List.length_map, List.length_range]
    omega
  · simp only [odds, List.length_map, List.length_range]
    omega

/-- `ifft_recursive` from `src/convolution_ops.c` (lines 121-137): for
`n ≤ 1` it returns immediately; otherwise it conjugates every sample, applies
`fft_recursive`, then maps `z ↦ (z.re / n, -z.im / n)` (the conjugate-and-
scale loop of lines 133-136). -/
noncomputable def ifftRec (l : List ℂ) : List ℂ :=
  if l.length ≤ 1 then l
  else
    (fftRec (l.map fun z => ⟨z.re, -z.im⟩)).map
      fun z => ⟨z.re / l.length, -z.im / l.length⟩

/-- The zero-filled (`calloc`) complex buffer of size `n` whose first entries
are the samples of `l` (the copy loops of `convolve_fft`, lines 158-166, and
`compute_fft`, lines 228-231).  When `n < l.length` the C loop writes past
the end of the buffer (undefined behaviour); the embedding lets the buffer
keep all `l.length` entries in that case, and every theorem below about
`convolve_fft` stays inside the well-defined region `n ≥ l.length`. -/
noncomputable def cpad (l : List ℝ) (n : ℕ) : List ℂ :=
  (l.map fun x : ℝ => (x : ℂ)) ++ List.replicate (n - l.length) 0

/-- `convolve_fft` from `src/convolution_ops.c` (lines 140-205): zero-pad both
inputs to the next power of two `≥ N+M-1`, forward FFT both, multiply
pointwise (lines 173-179), inverse FFT, and keep the real parts of the first
`N+M-1` samples. -/
noncomputable def convolve_fft (osignal1 osignal2 : Option Signal) : Option Signal := do
  let signal1 ← osignal1
  let signal2 ← osignal2
  let conv_length : ℤ := (signal1.data.length : ℤ) + (signal2.data.length : ℤ) - 1
  let fft_size := next_power_of_2 conv_length.toNat
  let fft1 := fftRec (cpad signal1.data fft_size)
  let fft2 := fftRec (cpad signal2.data fft_size)
  let prod := List.zipWith (· * ·) fft1 fft2
  let inv := ifftRec prod
  let result ← create_signal conv_length signal1.sample_rate
  pure { result with
    type := SignalType.custom
    name := "FFTConv(" ++ signal1.name ++ " * " ++ signal2.name ++ ")"
    data := (List.range conv_length.toNat).map fun i => (inv.getD i 0).re }

/-- The `FFTResult` struct of `include/convolution.h`. -/
structure FFTResult where
  data : List ℂ
  magnitude : List ℝ
  phase : List ℝ
  frequency : List ℝ
  length : ℕ

/-- `compute_fft` from `src/convolution_ops.c` (lines 208-256): pad to the
next power of two, forward FFT, then derive magnitude (`sqrt(re²+im²)`),
phase (`atan2(im, re)`, which is `Complex.arg`) and the two-sided frequency
axis.  The only `NULL` return paths are a null argument and allocation
failure, so for a non-null argument the embedding always produces a result. -/
noncomputable def compute_fft (osignal : Option Signal) : Option FFTResult := do
  let signal ← osignal
  let fft_size := next_power_of_2 signal.data.length
  let d := fftRec (cpad signal.data fft_size)
  let freq_resolution := signal.sample_rate / fft_size
  pure
    { data := d
      magnitude := d.map fun z => Real.sqrt (z.re * z.re + z.im * z.im)
      phase := d.map fun z => z.arg
      frequency := (List.range fft_size).map fun i =>
        if i ≤ fft_size / 2 then (i : ℝ) * freq_resolution
        else ((i : ℝ) - fft_size) * freq_resolution
      length := fft_size }

/-- The primitive `n`-th root of unity `e^(-2πi/n)` generating the twiddle
factors: `twiddle n k = omegaC n ^ k`. -/
noncomputable def omegaC (n : ℕ) : ℂ :=
  Complex.exp (-(2 * Real.pi * Complex.I) / n)

/-- The discrete Fourier transform value that `fft_recursive` computes in
slot `k`: `∑_j l[j]·e^(-2πi·jk/n)`. -/
noncomputable def dftVal (l : List ℂ) (k : ℕ) : ℂ :=
  ∑ j in Finset.range l.length, l.getD j 0 * omegaC l.length ^ (j * k)

/-- Example one-sample signal used by concrete witnesses. -/
noncomputable def sigX : Signal :=
  { data := [1], sample_rate := 2, duration := 1 / 2, type := SignalType.custom, name := "x" }

/-- A second example one-sample signal with a different sample rate. -/
noncomputable def sigY : Signal :=
  { data := [1], sample_rate := 3, duration := 1 / 3, type := SignalType.custom, name := "y" }

/-- An empty (zero-length) but non-null signal. -/
noncomputable def sigEmpty : Signal :=
  { data := [], sample_rate := 2, duration := 0, type := SignalType.custom, name := "e" }

/-- The concrete scenario signal `a = [1,2,1,0,0]` of the specification. -/
noncomputable def sigA : Signal :=
  { data := [1, 2, 1, 0, 0], sample_rate := 1, duration := 5, type := SignalType.custom,
    name := "a" }

/-- The concrete scenario signal `b = [1,0.5,0.25]` of the specification. -/
noncomputable def sigB : Signal :=
  { data := [1, 1 / 2, 1 / 4], sample_rate := 1, duration := 3, type := SignalType.custom,
    name := "b" }

/-! ## Basic lemmas about the linear convolution entries -/

/-- Transport a sum over the integer interval `[0, n]` to a sum over
`Finset.range (n+1)`. -/
theorem sum_Icc_int_eq_sum_range (f : ℤ → ℝ) (g : ℕ → ℝ) (n : ℕ)
    (h : ∀ j : ℕ, j ≤ n → f (j : ℤ) = g j) :
    ∑ k in Finset.Icc (0 : ℤ) (n : ℤ), f k = ∑ k in Finset.range (n + 1), g k := by
  refine Finset.sum_nbij' (fun k => k.toNat) (fun k => (k : ℤ)) ?_ ?_ ?_ ?_ ?_
  · intro x hx
    simp only [Finset.mem_Icc] at hx
    simp only [Finset.mem_range]
    omega
  · intro x hx
    simp only [Finset.mem_range] at hx
    simp only [Finset.mem_Icc]
    omega
  · intro x hx
    simp only [Finset.mem_Icc] at hx
    dsimp only
    omega
  · intro x _
    dsimp only
    omega
  · intro x hx
    simp only [Finset.mem_Icc] at hx
    dsimp only
    have hx' : ((x.toNat : ℤ)) = x := by omega
    rw [← hx', h x.toNat (by omega)]
    congr 1

/-- The guarded inner-loop sum of `convolve` equals the plain zero-padded
convolution sum `∑_{k ≤ n} a[k]·b[n−k]`. -/
theorem convEntry_eq_sum (a b : List ℝ) (n : ℕ) :
    convEntry a b (n : ℤ) =
      ∑ k in Finset.range (n + 1), a.getD k 0 * b.getD (n - k) 0 := by
  unfold convEntry
  have hsub : Finset.Icc (if (b.length : ℤ) - 1 ≤ (n : ℤ) then (n : ℤ) - b.length + 1 else 0)
      (if (n : ℤ) < (a.length : ℤ) then (n : ℤ) else (a.length : ℤ) - 1) ⊆
        Finset.Icc (0 : ℤ) (n : ℤ) := by
    apply Finset.Icc_subset_Icc <;> split <;> omega
  rw [Finset.sum_subset hsub]
  · apply sum_Icc_int_eq_sum_range
    intro j hj
    by_cases hA : j < a.length
    · by_cases hB : n - j < b.length
      · rw [if_pos (by omega)]
        have h1 : ((j : ℤ)).toNat = j := by omega
        have h2 : ((n : ℤ) - (j : ℤ)).toNat = n - j := by omega
        rw [h1, h2]
      · rw [if_neg (by omega), List.getD_eq_default _ _ (by omega : b.length ≤ n - j),
          mul_zero]
    · rw [if_neg (by omega), List.getD_eq_default _ _ (by omega : a.length ≤ j), zero_mul]
  · intro x hx hnx
    simp only [Finset.mem_Icc] at hx
    simp only [Finset.mem_Icc, not_and_or, not_le] at hnx
    apply if_neg
    rintro ⟨h1, h2, h3, h4⟩
    rcases hnx with h5 | h5 <;> revert h5 <;> split <;> omega

/-! ## Normal forms of the four operations -/

theorem convolve_none_left (o : Option Signal) : convolve none o = none := rfl

theorem convolve_none_right (a : Signal) : convolve (some a) none = none := rfl

theorem convolve_circular_none_left (o : Option Signal) : convolve_circular none o = none := rfl

theorem convolve_circular_none_right (a : Signal) : convolve_circular (some a) none = none := rfl

theorem convolve_fft_none_left (o : Option Signal) : convolve_fft none o = none := rfl

theorem convolve_fft_none_right (a : Signal) : convolve_fft (some a) none = none := rfl

theorem compute_fft_none : compute_fft none = none := rfl

/-- Normal form of a successful `convolve` call. -/
theorem convolve_some (a b : Signal) (h : 1 ≤ a.data.length + b.data.length) :
    convolve (some a) (some b) = some
      { data := (List.range (a.data.length + b.data.length - 1)).map
          fun n : ℕ => convEntry a.data b.data (n : ℤ)
        sample_rate := a.sample_rate
        duration := (((a.data.length : ℤ) + (b.data.length : ℤ) - 1 : ℤ) : ℝ) / a.sample_rate
        type := SignalType.custom
        name := "Conv(" ++ a.name ++ " * " ++ b.name ++ ")" } := by
  have ht : ((a.data.length : ℤ) + (b.data.length : ℤ) - 1).toNat =
      a.data.length + b.data.length - 1 := by omega
  simp only [convolve, create_signal, if_neg (by omega : ¬ ((a.data.length : ℤ) +
    (b.data.length : ℤ) - 1 < 0)), Option.bind_eq_bind, Option.some_bind, ht, Option.pure_def]

/-- `convolve` on two empty signals computes a negative output length and the
allocation fails. -/
theorem convolve_both_empty (a b : Signal) (h : a.data.length + b.data.length = 0) :
    convolve (some a) (some b) = none := by
  simp only [convolve, create_signal, if_pos (by omega : ((a.data.length : ℤ) +
    (b.data.length : ℤ) - 1 < 0)), Option.bind_eq_bind, Option.some_bind, Option.none_bind]

/-- Normal form of a `convolve_circular` call: it always succeeds. -/
theorem convolve_circular_some (a b : Signal) :
    convolve_circular (some a) (some b) = some
      { data := (List.range (max a.data.length b.data.length)).map
          fun n => circEntry a.data b.data n
        sample_rate := a.sample_rate
        duration := ((max a.data.length b.data.length : ℕ) : ℝ) / a.sample_rate
        type := SignalType.custom
        name := "CircConv(" ++ a.name ++ " * " ++ b.name ++ ")" } := by
  have ht : ((max a.data.length b.data.length : ℕ) : ℤ).toNat =
      max a.data.length b.data.length := by omega
  simp only [convolve_circular, create_signal,
    if_neg (by omega : ¬ (((max a.data.length b.data.length : ℕ) : ℤ) < 0)),
    Option.bind_eq_bind, Option.some_bind, ht, Int.cast_natCast, Option.pure_def]

/-- Normal form of a successful `convolve_fft` call. -/
theorem convolve_fft_some (a b : Signal) (h : 1 ≤ a.data.length + b.data.length) :
    convolve_fft (some a) (some b) = some
      { data := (List.range (a.data.length + b.data.length - 1)).map fun i =>
          ((ifftRec (List.zipWith (· * ·)
              (fftRec (cpad a.data (next_power_of_2 (a.data.length + b.data.length - 1))))
              (fftRec (cpad b.data (next_power_of_2 (a.data.length + b.data.length - 1)))))).getD
            i 0).re
        sample_rate := a.sample_rate
        duration := (((a.data.length : ℤ) + (b.data.length : ℤ) - 1 : ℤ) : ℝ) / a.sample_rate
        type := SignalType.custom
        name := "FFTConv(" ++ a.name ++ " * " ++ b.name ++ ")" } := by
  have ht : ((a.data.length : ℤ) + (b.data.length : ℤ) - 1).toNat =
      a.data.length + b.data.length - 1 := by omega
  simp only [convolve_fft, create_signal, if_neg (by omega : ¬ ((a.data.length : ℤ) +
    (b.data.length : ℤ) - 1 < 0)), Option.bind_eq_bind, Option.some_bind, ht, Option.pure_def]

/-- `convolve_fft` on two empty signals fails at the final allocation. -/
theorem convolve_fft_both_empty (a b : Signal) (h : a.data.length + b.data.length = 0) :
    convolve_fft (some a) (some b) = none := by
  simp only [convolve_fft, create_signal, if_pos (by omega : ((a.data.length : ℤ) +
    (b.data.length : ℤ) - 1 < 0)), Option.bind_eq_bind, Option.some_bind, Option.none_bind]

/-- Normal form of a `compute_fft` call on a non-null signal: it always
succeeds, even on an empty signal. -/
theorem compute_fft_some (s : Signal) :
    compute_fft (some s) = some
      { data := fftRec (cpad s.data (next_power_of_2 s.data.length))
        magnitude := (fftRec (cpad s.data (next_power_of_2 s.data.length))).map fun z =>
          Real.sqrt (z.re * z.re + z.im * z.im)
        phase := (fftRec (cpad s.data (next_power_of_2 s.data.length))).map fun z => z.arg
        frequency := (List.range (next_power_of_2 s.data.length)).map fun i =>
          if i ≤ next_power_of_2 s.data.length / 2 then
            (i : ℝ) * (s.sample_rate / next_power_of_2 s.data.length)
          else ((i : ℝ) - next_power_of_2 s.data.length) *
            (s.sample_rate / next_power_of_2 s.data.length)
        length := next_power_of_2 s.data.length } := by
  simp only [compute_fft, Option.bind_eq_bind, Option.some_bind, Option.pure_def]

/-! ## Small list access lemmas -/

theorem getD_map_range {α : Type} (f : ℕ → α) (d : α) {n i : ℕ} (hi : i < n) :
    ((List.range n).map f).getD i d = f i := by
  rw [List.getD_eq_getElem _ _ (by simpa using hi)]
  simp

/-- The explicit zero-padding conditionals of `convolve_circular` coincide
with default-zero list access. -/
theorem circEntry_eq (a b : List ℝ) (n : ℕ) :
    circEntry a b n = ∑ k in Finset.range (max a.length b.length),
      a.getD k 0 *
        b.getD ((n + max a.length b.length - k) % max a.length b.length) 0 := by
  unfold circEntry
  refine Finset.sum_congr rfl fun k _ => ?_
  congr 1
  · split
    · rfl
    · rw [List.getD_eq_default _ _ (by omega)]
  · split
    · rfl
    · rw [List.getD_eq_default _ _ (by omega)]

/-- The inner-loop sum of `convolve` written over the index interval
`[max 0 (n−M+1), min n (N−1)]` of the specification, with the redundant
bounds guard dropped. -/
theorem convEntry_eq_Icc (a b : List ℝ) (n : ℕ) :
    convEntry a b (n : ℤ) =
      ∑ k in Finset.Icc (max 0 ((n : ℤ) - b.length + 1)) (min (n : ℤ) ((a.length : ℤ) - 1)),
        a.getD k.toNat 0 * b.getD ((n : ℤ) - k).toNat 0 := by
  unfold convEntry
  have h1 : (if (b.length : ℤ) - 1 ≤ (n : ℤ) then (n : ℤ) - b.length + 1 else 0) =
      max 0 ((n : ℤ) - b.length + 1) := by split <;> omega
  have h2 : (if (n : ℤ) < (a.length : ℤ) then (n : ℤ) else (a.length : ℤ) - 1) =
      min (n : ℤ) ((a.length : ℤ) - 1) := by split <;> omega
  rw [h1, h2]
  refine Finset.sum_congr rfl fun k hk => ?_
  simp only [Finset.mem_Icc] at hk
  rw [if_pos (by omega)]

/-! ## Claim theorems: lengths, error handling, commutativity, metadata -/

/-- C2: for non-empty inputs, `convolve` output has length `N+M−1`,
`convolve_circular` output has length `max N M`, and `convolve_fft` output has
length `N+M−1`. -/
theorem spec_C2 (a b : Signal) (r c f : Signal)
    (hN : 1 ≤ a.data.length) (hM : 1 ≤ b.data.length)
    (hr : convolve (some a) (some b) = some r)
    (hc : convolve_circular (some a) (some b) = some c)
    (hf : convolve_fft (some a) (some b) = some f) :
    r.data.length = a.data.length + b.data.length - 1 ∧
    c.data.length = max a.data.length b.data.length ∧
    f.data.length = a.data.length + b.data.length - 1 := by
  rw [convolve_some a b (by omega)] at hr
  rw [convolve_circular_some a b] at hc
  rw [convolve_fft_some a b (by omega)] at hf
  injection hr with hr
  injection hc with hc
  injection hf with hf
  subst hr hc hf
  refine ⟨?_, ?_, ?_⟩ <;> simp

/-- C2 witness: two one-sample signals. -/
theorem spec_C2_witness :
    Option.map (fun s => s.data.length) (convolve (some sigX) (some sigY)) = some 1 ∧
    Option.map (fun s => s.data.length) (convolve_circular (some sigX) (some sigY)) = some 1 ∧
    Option.map (fun s => s.data.length) (convolve_fft (some sigX) (some sigY)) = some 1 := by
  have hr := convolve_some sigX sigY (by norm_num [sigX, sigY])
  have hc := convolve_circular_some sigX sigY
  have hf := convolve_fft_some sigX sigY (by norm_num [sigX, sigY])
  obtain ⟨h1, h2, h3⟩ := spec_C2 sigX sigY _ _ _ (by norm_num [sigX])
    (by norm_num [sigY]) hr hc hf
  rw [hr, hc, hf]
  simp only [Option.map_some']
  rw [Option.some_inj, Option.some_inj, Option.some_inj, h1, h2, h3]
  norm_num [sigX, sigY]

/-- C3 counterexample: the claim asserts every operation fails when an input
has non-positive length, but `convolve_circular` succeeds on a pair whose
second signal is empty (the code checks only for `NULL`). -/
theorem spec_C3_counterexample :
    (convolve_circular (some sigX) (some sigEmpty)).isSome = true := by
  rw [convolve_circular_some]
  rfl

/-- C3 (amended): the three operations fail exactly on null inputs; a
non-positive length is not rejected.  Given non-null inputs,
`convolve_circular` always succeeds, `convolve` succeeds iff `N+M ≥ 1` (for
two empty inputs the negative allocation size makes it fail), and
`convolve_fft` succeeds for non-empty inputs and fails for two empty inputs.
No partial result is ever returned. -/
theorem spec_C3 (a b : Signal) :
    (convolve_circular (some a) (some b)).isSome = true ∧
    ((convolve (some a) (some b)).isSome = true ↔ 1 ≤ a.data.length + b.data.length) ∧
    (1 ≤ a.data.length → 1 ≤ b.data.length → (convolve_fft (some a) (some b)).isSome = true) ∧
    (a.data.length + b.data.length = 0 → convolve_fft (some a) (some b) = none) ∧
    convolve none (some b) = none ∧ convolve (some a) none = none ∧
    convolve_circular none (some b) = none ∧ convolve_circular (some a) none = none ∧
    convolve_fft none (some b) = none ∧ convolve_fft (some a) none = none := by
  refine ⟨?_, ⟨?_, ?_⟩, ?_, ?_, rfl, rfl, rfl, rfl, rfl, rfl⟩
  · rw [convolve_circular_some]
    rfl
  · intro h
    by_contra hlen
    rw [convolve_both_empty a b (by omega)] at h
    exact Bool.false_ne_true h
  · intro h
    rw [convolve_some a b h]
    rfl
  · intro hN hM
    rw [convolve_fft_some a b (by omega)]
    rfl
  · intro h
    exact convolve_fft_both_empty a b h

/-- C3 witness: the amended statement at two concrete signals. -/
theorem spec_C3_witness :
    (convolve_circular (some sigX) (some sigY)).isSome = true ∧
    ((convolve (some sigX) (some sigY)).isSome = true ↔
      1 ≤ sigX.data.length + sigY.data.length) ∧
    (1 ≤ sigX.data.length → 1 ≤ sigY.data.length →
      (convolve_fft (some sigX) (some sigY)).isSome = true) ∧
    (sigX.data.length + sigY.data.length = 0 → convolve_fft (some sigX) (some sigY) = none) ∧
    convolve none (some sigY) = none ∧ convolve (some sigX) none = none ∧
    convolve_circular none (some sigY) = none ∧ convolve_circular (some sigX) none = none ∧
    convolve_fft none (some sigY) = none ∧ convolve_fft (some sigX) none = none :=
  spec_C3 sigX sigY

/-- C9: linear convolution is commutative at the level of sample data
(the two calls differ in name and, when sample rates differ, in metadata,
but the samples agree exactly over idealized real arithmetic). -/
theorem spec_C9 (a b : Signal) :
    Option.map Signal.data (convolve (some a) (some b)) =
      Option.map Signal.data (convolve (some b) (some a)) := by
  rcases Nat.eq_zero_or_pos (a.data.length + b.data.length) with h | h
  · rw [convolve_both_empty a b h, convolve_both_empty b a (by omega)]
  · rw [convolve_some a b (by omega), convolve_some b a (by omega)]
    simp only [Option.map_some']
    rw [Option.some_inj]
    have hlen : b.data.length + a.data.length - 1 = a.data.length + b.data.length - 1 := by
      omega
    rw [hlen]
    refine List.map_congr_left fun n hn => ?_
    rw [convEntry_eq_sum, convEntry_eq_sum, ← Finset.sum_range_reflect]
    refine Finset.sum_congr rfl fun k hk => ?_
    simp only [Finset.mem_range] at hk
    have h1 : n + 1 - 1 - k = n - k := by omega
    have h2 : n - (n - k) = k := by omega
    rw [h1, h2, mul_comm]

/-- C10: all three operations tag their result `SIGNAL_CUSTOM` and give it the
first input's sample rate, regardless of the second input's sample rate. -/
theorem spec_C10 (a b : Signal) :
    (∀ r, convolve (some a) (some b) = some r →
      r.type = SignalType.custom ∧ r.sample_rate = a.sample_rate) ∧
    (∀ r, convolve_circular (some a) (some b) = some r →
      r.type = SignalType.custom ∧ r.sample_rate = a.sample_rate) ∧
    (∀ r, convolve_fft (some a) (some b) = some r →
      r.type = SignalType.custom ∧ r.sample_rate = a.sample_rate) := by
  refine ⟨fun r hr => ?_, fun r hr => ?_, fun r hr => ?_⟩
  · rcases Nat.eq_zero_or_pos (a.data.length + b.data.length) with h | h
    · rw [convolve_both_empty a b h] at hr
      cases hr
    · rw [convolve_some a b (by omega)] at hr
      injection hr with hr
      subst hr
      exact ⟨rfl, rfl⟩
  · rw [convolve_circular_some a b] at hr
    injection hr with hr
    subst hr
    exact ⟨rfl, rfl⟩
  · rcases Nat.eq_zero_or_pos (a.data.length + b.data.length) with h | h
    · rw [convolve_fft_both_empty a b h] at hr
      cases hr
    · rw [convolve_fft_some a b (by omega)] at hr
      injection hr with hr
      subst hr
      exact ⟨rfl, rfl⟩

/-- C10 witness: concrete signals with different sample rates (2 and 3);
every result keeps rate 2 and type `custom`. -/
theorem spec_C10_witness :
    Option.map Signal.type (convolve (some sigX) (some sigY)) = some SignalType.custom ∧
    Option.map Signal.sample_rate (convolve (some sigX) (some sigY)) = some 2 ∧
    Option.map Signal.type (convolve_circular (some sigX) (some sigY)) =
      some SignalType.custom ∧
    Option.map Signal.sample_rate (convolve_circular (some sigX) (some sigY)) = some 2 ∧
    Option.map Signal.type (convolve_fft (some sigX) (some sigY)) = some SignalType.custom ∧
    Option.map Signal.sample_rate (convolve_fft (some sigX) (some sigY)) = some 2 := by
  obtain ⟨h1, h2, h3⟩ := spec_C10 sigX sigY
  have hr := convolve_some sigX sigY (by norm_num [sigX, sigY])
  have hc := convolve_circular_some sigX sigY
  have hf := convolve_fft_some sigX sigY (by norm_num [sigX, sigY])
  obtain ⟨ht1, hs1⟩ := h1 _ hr
  obtain ⟨ht2, hs2⟩ := h2 _ hc
  obtain ⟨ht3, hs3⟩ := h3 _ hf
  rw [hr, hc, hf]
  simp only [Option.map_some']
  norm_num [sigX]

/-- C6: each output sample of `convolve` is the sum of `a[k]·b[n−k]` over
`k ∈ [max(0, n−M+1), min(n, N−1)]`, and the concrete scenario
`a = [1,2,1,0,0]`, `b = [1,0.5,0.25]` produces `[1, 2.5, 2.25, 1, 0.25, 0, 0]`. -/
theorem spec_C6 (a b : Signal) (r : Signal)
    (hr : convolve (some a) (some b) = some r) (n : ℕ) (hn : n < r.data.length) :
    r.data.getD n 0 =
      (∑ k in Finset.Icc (max 0 ((n : ℤ) - b.data.length + 1))
          (min (n : ℤ) ((a.data.length : ℤ) - 1)),
        a.data.getD k.toNat 0 * b.data.getD ((n : ℤ) - k).toNat 0) ∧
    Option.map Signal.data (convolve (some sigA) (some sigB)) =
      some [1, 5 / 2, 9 / 4, 1, 1 / 4, 0, 0] := by
  constructor
  · rcases Nat.eq_zero_or_pos (a.data.length + b.data.length) with h | h
    · rw [convolve_both_empty a b h] at hr
      cases hr
    · rw [convolve_some a b (by omega)] at hr
      injection hr with hr
      subst hr
      simp only [List.length_map, List.length_range] at hn
      rw [getD_map_range _ _ hn, convEntry_eq_Icc]
  · rw [convolve_some sigA sigB (by norm_num [sigA, sigB])]
    simp only [Option.map_some']
    rw [Option.some_inj]
    show List.map _ (List.range (([(1:ℝ), 2, 1, 0, 0]).length + ([(1:ℝ), 1/2, 1/4]).length - 1))
      = _
    norm_num only [List.length_cons, List.length_nil]
    rw [show List.range 7 = [0, 1, 2, 3, 4, 5, 6] from rfl]
    simp only [List.map_cons, List.map_nil, convEntry_eq_sum]
    norm_num [sigA, sigB, Finset.sum_range_succ, List.getD_cons_zero, List.getD_cons_succ]

/-- C6 witness: the concrete scenario evaluated through the theorem. -/
theorem spec_C6_witness :
    Option.map Signal.data (convolve (some sigA) (some sigB)) =
      some [1, 5 / 2, 9 / 4, 1, 1 / 4, 0, 0] := by
  have hr := convolve_some sigA sigB (by norm_num [sigA, sigB])
  exact (spec_C6 sigA sigB _ hr 0 (by simp [sigA, sigB])).2

/-- C7: each output sample of `convolve_circular` is
`∑_{k<L} a[k]·b[(n−k+L) mod L]` with zero-extension past each signal's own
length, and in the concrete scenario (`a` of length 5, `b` of length 3,
`L = 5`) the output has length 5 with
`y[0] = a[0]b[0] + a[1]b[4] + a[2]b[3] + a[3]b[2] + a[4]b[1]` where `b[3]`
and `b[4]` are the zero padding. -/
theorem spec_C7 (a b : Signal) (r : Signal)
    (hr : convolve_circular (some a) (some b) = some r) (n : ℕ) (hn : n < r.data.length) :
    r.data.getD n 0 =
      (∑ k in Finset.range (max a.data.length b.data.length),
        a.data.getD k 0 *
          b.data.getD ((n + max a.data.length b.data.length - k) %
            max a.data.length b.data.length) 0) ∧
    Option.map (fun s => s.data.length) (convolve_circular (some sigA) (some sigB)) = some 5 ∧
    Option.map (fun s => s.data.getD 0 0) (convolve_circular (some sigA) (some sigB)) =
      some (1 * 1 + 2 * 0 + 1 * 0 + 0 * (1 / 4) + 0 * (1 / 2)) := by
  refine ⟨?_, ?_, ?_⟩
  · rw [convolve_circular_some a b] at hr
    injection hr with hr
    subst hr
    simp only [List.length_map, List.length_range] at hn
    rw [getD_map_range _ _ hn, circEntry_eq]
  · rw [convolve_circular_some]
    simp [sigA, sigB]
  · rw [convolve_circular_some]
    simp only [Option.map_some']
    rw [Option.some_inj]
    rw [getD_map_range _ _
      (show 0 < max sigA.data.length sigB.data.length by norm_num [sigA, sigB])]
    norm_num [circEntry, sigA, sigB, Finset.sum_range_succ,
      List.getD_cons_zero, List.getD_cons_succ]

/-- C7 witness: the concrete circular-convolution scenario through the
theorem. -/
theorem spec_C7_witness :
    Option.map (fun s => s.data.length) (convolve_circular (some sigA) (some sigB)) = some 5 ∧
    Option.map (fun s => s.data.getD 0 0) (convolve_circular (some sigA) (some sigB)) =
      some (1 * 1 + 2 * 0 + 1 * 0 + 0 * (1 / 4) + 0 * (1 / 2)) := by
  have hr := convolve_circular_some sigA sigB
  exact (spec_C7 sigA sigB _ hr 0 (by simp [sigA, sigB])).2

/-! ## Properties of `next_power_of_2` -/

theorem npow2Loop_ge (n : ℕ) (p : {p : ℕ // 0 < p}) : n ≤ npow2Loop n p := by
  rw [npow2Loop]
  split
  · exact npow2Loop_ge n ⟨p.1 + p.1, by omega⟩
  · omega
termination_by n - p.1
decreasing_by
  have := p.2
  omega

theorem npow2Loop_pow (n : ℕ) (p : {p : ℕ // 0 < p}) (hp : ∃ k, p.1 = 2 ^ k) :
    ∃ k, npow2Loop n p = 2 ^ k := by
  rw [npow2Loop]
  split
  · refine npow2Loop_pow n ⟨p.1 + p.1, by omega⟩ ?_
    obtain ⟨k, hk⟩ := hp
    exact ⟨k + 1, by simp [hk, pow_succ]; ring⟩
  · exact hp
termination_by n - p.1
decreasing_by
  have := p.2
  omega

theorem next_power_of_2_ge (n : ℕ) : n ≤ next_power_of_2 n :=
  npow2Loop_ge n ⟨1, Nat.one_pos⟩

theorem next_power_of_2_pow (n : ℕ) : ∃ k, next_power_of_2 n = 2 ^ k :=
  npow2Loop_pow n ⟨1, Nat.one_pos⟩ ⟨0, rfl⟩

/-! ## The twiddle factors as powers of a primitive root of unity -/

theorem mk_cos_sin (θ : ℝ) :
    (⟨Real.cos θ, Real.sin θ⟩ : ℂ) = Complex.exp ((θ : ℂ) * Complex.I) := by
  rw [Complex.exp_mul_I]
  apply Complex.ext <;>
    simp [Complex.cos_ofReal_re, Complex.sin_ofReal_re, Complex.cos_ofReal_im,
      Complex.sin_ofReal_im]

theorem twiddle_eq_pow (n k : ℕ) : twiddle n k = omegaC n ^ k := by
  rw [twiddle, omegaC, mk_cos_sin, ← Complex.exp_nat_mul]
  congr 1
  push_cast
  ring

theorem omegaC_ne_zero (n : ℕ) : omegaC n ≠ 0 := Complex.exp_ne_zero _

theorem omegaC_pow_self (n : ℕ) : omegaC n ^ n = 1 := by
  rcases Nat.eq_zero_or_pos n with h | h
  · simp [h]
  · have hn : (n : ℂ) ≠ 0 := by exact_mod_cast h.ne'
    rw [omegaC, ← Complex.exp_nat_mul]
    rw [show (n : ℂ) * (-(2 * (Real.pi : ℂ) * Complex.I) / n) =
      -(2 * (Real.pi : ℂ) * Complex.I) from by field_simp; ring]
    rw [Complex.exp_neg, Complex.exp_two_pi_mul_I, inv_one]

theorem conj_omegaC (n : ℕ) : (starRingEnd ℂ) (omegaC n) = (omegaC n)⁻¹ := by
  rw [omegaC, ← Complex.exp_conj]
  rw [show (starRingEnd ℂ) (-(2 * (Real.pi : ℂ) * Complex.I) / n) =
      -(-(2 * (Real.pi : ℂ) * Complex.I) / n) from by
    simp [map_div₀, Complex.conj_I, Complex.conj_ofReal, map_ofNat]
    ring]
  rw [Complex.exp_neg]

theorem two_pi_I_ne_zero : (2 : ℂ) * Real.pi * Complex.I ≠ 0 :=
  mul_ne_zero (mul_ne_zero two_ne_zero (by exact_mod_cast Real.pi_ne_zero)) Complex.I_ne_zero

/-- `omegaC n` is a primitive `n`-th root of unity: an integer power is `1`
exactly when `n` divides the exponent. -/
theorem omegaC_zpow_eq_one_iff (n : ℕ) (hn : 1 ≤ n) (d : ℤ) :
    omegaC n ^ d = 1 ↔ (n : ℤ) ∣ d := by
  have hnC : (n : ℂ) ≠ 0 := by
    exact_mod_cast (by omega : (n : ℤ) ≠ 0)
  rw [omegaC, ← Complex.exp_int_mul, Complex.exp_eq_one_iff]
  constructor
  · rintro ⟨m, hm⟩
    rw [← mul_div_assoc, div_eq_iff hnC] at hm
    have hw : (-(d : ℂ)) * (2 * Real.pi * Complex.I) =
        ((m : ℂ) * n) * (2 * Real.pi * Complex.I) := by
      linear_combination hm
    have hC : (-(d : ℂ)) = (m : ℂ) * n := mul_right_cancel₀ two_pi_I_ne_zero hw
    have hZ : -d = m * n := by exact_mod_cast hC
    refine ⟨-m, ?_⟩
    have h4 : (n : ℤ) * -m = -(m * n) := by ring
    rw [h4]
    linarith
  · rintro ⟨t, ht⟩
    refine ⟨-t, ?_⟩
    rw [ht]
    push_cast
    field_simp
    ring

theorem omegaC_sq (h : ℕ) (hh : 1 ≤ h) : omegaC (2 * h) ^ 2 = omegaC h := by
  have hhC : (h : ℂ) ≠ 0 := by exact_mod_cast (by omega : (h : ℤ) ≠ 0)
  rw [omegaC, omegaC, ← Complex.exp_nat_mul]
  congr 1
  push_cast
  field_simp
  ring

theorem omegaC_pow_half (h : ℕ) (hh : 1 ≤ h) : omegaC (2 * h) ^ h = -1 := by
  have hhC : (h : ℂ) ≠ 0 := by exact_mod_cast (by omega : (h : ℤ) ≠ 0)
  rw [omegaC, ← Complex.exp_nat_mul]
  rw [show (h : ℂ) * (-(2 * (Real.pi : ℂ) * Complex.I) / ((2 * h : ℕ) : ℂ)) =
      -((Real.pi : ℂ) * Complex.I) from by push_cast; field_simp; ring]
  rw [Complex.exp_neg, Complex.exp_pi_mul_I]
  norm_num

theorem sum_pow_root_eq_zero (n : ℕ) (x : ℂ) (hx : x ^ n = 1) (hx1 : x ≠ 1) :
    ∑ k in Finset.range n, x ^ k = 0 := by
  rw [geom_sum_eq hx1, hx]
  simp

/-- Orthogonality of the discrete characters: summing the `k`-th powers of
`omegaC n ^ d` over `k < n` gives `n` when `n ∣ d` and `0` otherwise. -/
theorem omegaC_orthogonality (n : ℕ) (hn : 1 ≤ n) (d : ℤ) :
    ∑ k in Finset.range n, (omegaC n ^ d) ^ k =
      if (n : ℤ) ∣ d then (n : ℂ) else 0 := by
  by_cases hdvd : (n : ℤ) ∣ d
  · rw [if_pos hdvd, (omegaC_zpow_eq_one_iff n hn d).mpr hdvd]
    simp
  · rw [if_neg hdvd]
    refine sum_pow_root_eq_zero n _ ?_ ?_
    · rw [← zpow_natCast (omegaC n ^ d) n, ← zpow_mul, mul_comm, zpow_mul,
        zpow_natCast, omegaC_pow_self, one_zpow]
    · intro h1
      exact hdvd ((omegaC_zpow_eq_one_iff n hn d).mp h1)

/-! ## The recursive FFT computes the discrete Fourier transform -/

theorem evens_length (l : List ℂ) : (evens l).length = l.length / 2 := by
  simp [evens]

theorem odds_length (l : List ℂ) : (odds l).length = l.length / 2 := by
  simp [odds]

theorem evens_getD (l : List ℂ) {i : ℕ} (hi : i < l.length / 2) :
    (evens l).getD i 0 = l.getD (2 * i) 0 := by
  rw [evens, getD_map_range _ _ hi]

theorem odds_getD (l : List ℂ) {i : ℕ} (hi : i < l.length / 2) :
    (odds l).getD i 0 = l.getD (2 * i + 1) 0 := by
  rw [odds, getD_map_range _ _ hi]

theorem sum_range_even_odd (f : ℕ → ℂ) (h : ℕ) :
    ∑ j in Finset.range (2 * h), f j =
      (∑ i in Finset.range h, f (2 * i)) + ∑ i in Finset.range h, f (2 * i + 1) := by
  induction h with
  | zero => simp
  | succ m ih =>
    rw [show 2 * (m + 1) = 2 * m + 1 + 1 from by ring]
    simp only [Finset.sum_range_succ]
    rw [ih]
    ring

theorem fftRec_of_le_one (l : List ℂ) (h : l.length ≤ 1) : fftRec l = l := by
  rw [fftRec, if_pos h]

theorem fftRec_of_ge_two (l : List ℂ) (h : 2 ≤ l.length) :
    fftRec l = fftCombine l.length (fftRec (evens l)) (fftRec (odds l)) := by
  rw [fftRec, if_neg (by omega)]

theorem fftCombine_length (n : ℕ) (ev od : List ℂ) :
    (fftCombine n ev od).length = n / 2 + n / 2 := by
  simp [fftCombine]

theorem fftCombine_getD_lt (n : ℕ) (ev od : List ℂ) {k : ℕ} (hk : k < n / 2) :
    (fftCombine n ev od).getD k 0 = ev.getD k 0 + twiddle n k * od.getD k 0 := by
  rw [fftCombine, List.getD_append _ _ _ _ (by simpa using hk)]
  exact getD_map_range _ _ hk

theorem fftCombine_getD_ge (n : ℕ) (ev od : List ℂ) {k : ℕ} (hk : k < n / 2) :
    (fftCombine n ev od).getD (k + n / 2) 0 = ev.getD k 0 - twiddle n k * od.getD k 0 := by
  rw [fftCombine, List.getD_append_right _ _ _ _ (by simp)]
  simp only [List.length_map, List.length_range, Nat.add_sub_cancel]
  exact getD_map_range _ _ hk

theorem list_eq_of_getD {α : Type} (l1 l2 : List α) (d : α) (hlen : l1.length = l2.length)
    (h : ∀ i, i < l1.length → l1.getD i d = l2.getD i d) : l1 = l2 := by
  apply List.ext_getElem hlen
  intro i h1 h2
  have hi := h i h1
  rwa [List.getD_eq_getElem _ _ h1, List.getD_eq_getElem _ _ h2] at hi

/-- The butterfly identities: the DFT of a sequence of length `2h` splits into
the DFTs of its even- and odd-indexed halves. -/
theorem dftVal_even_odd (l : List ℂ) (h : ℕ) (hh : 1 ≤ h) (hl : l.length = 2 * h) (k : ℕ) :
    dftVal l k = dftVal (evens l) k + omegaC (2 * h) ^ k * dftVal (odds l) k ∧
    dftVal l (k + h) = dftVal (evens l) k - omegaC (2 * h) ^ k * dftVal (odds l) k := by
  have he : (evens l).length = h := by rw [evens_length, hl]; omega
  have ho : (odds l).length = h := by rw [odds_length, hl]; omega
  have hlh : l.length / 2 = h := by omega
  have hone : ∀ i : ℕ, omegaC (2 * h) ^ (2 * h * i) = 1 := fun i => by
    rw [pow_mul, omegaC_pow_self, one_pow]
  constructor
  · rw [dftVal, hl]
    rw [sum_range_even_odd (fun j => l.getD j 0 * omegaC (2 * h) ^ (j * k)) h]
    congr 1
    · rw [dftVal, he]
      refine Finset.sum_congr rfl fun i hi => ?_
      simp only [Finset.mem_range] at hi
      rw [evens_getD l (by omega)]
      congr 1
      rw [show 2 * i * k = 2 * (i * k) from by ring, pow_mul, omegaC_sq h hh]
    · rw [dftVal, ho, Finset.mul_sum]
      refine Finset.sum_congr rfl fun i hi => ?_
      simp only [Finset.mem_range] at hi
      rw [odds_getD l (by omega)]
      rw [show (2 * i + 1) * k = 2 * (i * k) + k from by ring, pow_add, pow_mul,
        omegaC_sq h hh]
      ring
  · rw [dftVal, hl]
    rw [sum_range_even_odd (fun j => l.getD j 0 * omegaC (2 * h) ^ (j * (k + h))) h]
    have heven : ∀ i ∈ Finset.range h,
        l.getD (2 * i) 0 * omegaC (2 * h) ^ (2 * i * (k + h)) =
          (evens l).getD i 0 * omegaC h ^ (i * k) := by
      intro i hi
      simp only [Finset.mem_range] at hi
      rw [evens_getD l (by omega)]
      congr 1
      rw [show 2 * i * (k + h) = 2 * (i * k) + 2 * h * i from by ring, pow_add, pow_mul,
        omegaC_sq h hh, hone i, mul_one]
    have hodd : ∀ i ∈ Finset.range h,
        l.getD (2 * i + 1) 0 * omegaC (2 * h) ^ ((2 * i + 1) * (k + h)) =
          -(omegaC (2 * h) ^ k * ((odds l).getD i 0 * omegaC h ^ (i * k))) := by
      intro i hi
      simp only [Finset.mem_range] at hi
      rw [odds_getD l (by omega)]
      rw [show (2 * i + 1) * (k + h) = 2 * (i * k) + 2 * h * i + k + h from by ring,
        pow_add, pow_add, pow_add, pow_mul, omegaC_sq h hh, hone i,
        omegaC_pow_half h hh]
      ring
    rw [Finset.sum_congr rfl heven, Finset.sum_congr rfl hodd]
    rw [dftVal, dftVal, he, ho, Finset.sum_neg_distrib, Finset.mul_sum]
    ring

/-- `fft_recursive` computes the discrete Fourier transform on any buffer
whose length is a power of two. -/
theorem fftRec_eq_dft : ∀ (m : ℕ) (l : List ℂ), l.length = 2 ^ m →
    fftRec l = (List.range l.length).map fun k => dftVal l k := by
  intro m
  induction m with
  | zero =>
    intro l hl
    rw [fftRec_of_le_one l (by omega)]
    obtain ⟨x, rfl⟩ := List.length_eq_one.mp (by simpa using hl)
    simp [dftVal, List.range_succ]
  | succ m ih =>
    intro l hl
    have hh : 1 ≤ 2 ^ m := Nat.one_le_two_pow
    have hl2 : l.length = 2 * 2 ^ m := by rw [hl]; ring
    have he : (evens l).length = 2 ^ m := by rw [evens_length, hl2]; omega
    have ho : (odds l).length = 2 ^ m := by rw [odds_length, hl2]; omega
    rw [fftRec_of_ge_two l (by omega), ih (evens l) he, ih (odds l) ho]
    refine list_eq_of_getD _ _ 0 ?_ ?_
    · rw [fftCombine_length]
      simp only [List.length_map, List.length_range]
      omega
    · intro i hi
      rw [fftCombine_length] at hi
      have hhalf : l.length / 2 = 2 ^ m := by omega
      rcases Nat.lt_or_ge i (2 ^ m) with hlt | hge
      · rw [fftCombine_getD_lt _ _ _ (by omega : i < l.length / 2)]
        rw [getD_map_range _ _ (by omega : i < (evens l).length),
          getD_map_range _ _ (by omega : i < (odds l).length),
          getD_map_range _ _ (by omega : i < l.length)]
        rw [twiddle_eq_pow, show l.length = 2 * 2 ^ m from hl2]
        exact (dftVal_even_odd l (2 ^ m) hh hl2 i).1.symm
      · rw [show i = (i - 2 ^ m) + l.length / 2 from by omega]
        rw [fftCombine_getD_ge _ _ _ (by omega : i - 2 ^ m < l.length / 2)]
        rw [getD_map_range _ _ (by omega : i - 2 ^ m < (evens l).length),
          getD_map_range _ _ (by omega : i - 2 ^ m < (odds l).length),
          getD_map_range _ _ (by omega : i - 2 ^ m + l.length / 2 < l.length)]
        rw [twiddle_eq_pow, hhalf, show l.length = 2 * 2 ^ m from hl2]
        exact (dftVal_even_odd l (2 ^ m) hh hl2 (i - 2 ^ m)).2.symm

theorem fftRec_length (m : ℕ) (l : List ℂ) (hl : l.length = 2 ^ m) :
    (fftRec l).length = l.length := by
  rw [fftRec_eq_dft m l hl]
  simp

theorem fftRec_getD (m : ℕ) (l : List ℂ) (hl : l.length = 2 ^ m) {j : ℕ}
    (hj : j < l.length) : (fftRec l).getD j 0 = dftVal l j := by
  rw [fftRec_eq_dft m l hl, getD_map_range _ _ hj]

/-- The literal conjugation loop of `ifft_recursive` is complex conjugation. -/
theorem mk_re_neg_im (z : ℂ) : (⟨z.re, -z.im⟩ : ℂ) = (starRingEnd ℂ) z := by
  apply Complex.ext <;> simp

theorem getD_map_conjlit (z : List ℂ) (k : ℕ) :
    (z.map fun t => (⟨t.re, -t.im⟩ : ℂ)).getD k 0 = (starRingEnd ℂ) (z.getD k 0) := by
  rcases Nat.lt_or_ge k z.length with h | h
  · rw [List.getD_eq_getElem _ _ (by simpa using h), List.getElem_map,
      ← List.getD_eq_getElem _ 0 h, mk_re_neg_im]
  · rw [List.getD_eq_default _ _ (by simpa using h), List.getD_eq_default _ _ h]
    simp

/-- The scale-and-conjugate loop of `ifft_recursive` is conjugation followed
by division by `r`. -/
theorem mk_conj_div (t : ℂ) (r : ℝ) :
    (⟨t.re / r, -t.im / r⟩ : ℂ) = (starRingEnd ℂ) t / (r : ℂ) := by
  rcases eq_or_ne r 0 with h | h
  · simp [h, Complex.ext_iff]
  · rw [eq_div_iff (by exact_mod_cast h : (r : ℂ) ≠ 0)]
    apply Complex.ext <;>
      simp only [Complex.mul_re, Complex.mul_im, Complex.ofReal_re, Complex.ofReal_im,
        Complex.conj_re, Complex.conj_im] <;>
      field_simp

/-- Every output slot of `ifft_recursive` on a power-of-two-length buffer is
the inverse discrete Fourier transform value `(1/n)·∑_k z[k]·e^(2πi·jk/n)`. -/
theorem ifftRec_entry (m : ℕ) (z : List ℂ) (hz : z.length = 2 ^ m) {j : ℕ}
    (hj : j < z.length) :
    (ifftRec z).getD j 0 =
      (∑ k in Finset.range z.length, z.getD k 0 * ((omegaC z.length)⁻¹) ^ (j * k)) /
        (z.length : ℂ) := by
  rcases Nat.lt_or_ge z.length 2 with h2 | h2
  · have h1 : z.length = 1 := by
      have := Nat.one_le_two_pow (n := m)
      omega
    obtain ⟨x, rfl⟩ := List.length_eq_one.mp h1
    have hj0 : j = 0 := by
      simp only [List.length_singleton] at hj
      omega
    subst hj0
    rw [ifftRec, if_pos (by simp)]
    simp
  · rw [ifftRec, if_neg (by omega)]
    have hconjlen : (z.map fun t => (⟨t.re, -t.im⟩ : ℂ)).length = 2 ^ m := by
      simpa using hz
    have hwlen : (fftRec (z.map fun t => (⟨t.re, -t.im⟩ : ℂ))).length = z.length := by
      rw [fftRec_length m _ hconjlen]
      simp
    rw [List.getD_eq_getElem _ _ (by simpa [hwlen] using hj), List.getElem_map,
      ← List.getD_eq_getElem _ 0 (by rw [hwlen]; exact hj)]
    rw [fftRec_getD m _ hconjlen (by simpa using hj)]
    rw [mk_conj_div]
    congr 1
    rw [dftVal, map_sum]
    simp only [List.length_map]
    refine Finset.sum_congr rfl fun k hk => ?_
    rw [map_mul, map_pow, conj_omegaC, getD_map_conjlit]
    simp only [Complex.conj_conj]
    rw [Nat.mul_comm k j]

theorem ifftRec_length (m : ℕ) (z : List ℂ) (hz : z.length = 2 ^ m) :
    (ifftRec z).length = z.length := by
  rw [ifftRec]
  split
  · rfl
  · rw [List.length_map, fftRec_length m _ (by simpa using hz)]
    simp

/-- Applying `ifft_recursive` after `fft_recursive` reconstructs the input
exactly (idealized real arithmetic). -/
theorem ifft_fft_roundtrip (m : ℕ) (l : List ℂ) (hl : l.length = 2 ^ m) :
    ifftRec (fftRec l) = l := by
  have hflen : (fftRec l).length = l.length := fftRec_length m l hl
  have hn1 : 1 ≤ l.length := by
    rw [hl]
    exact Nat.one_le_two_pow
  have hnC : (l.length : ℂ) ≠ 0 := Nat.cast_ne_zero.mpr (by omega)
  refine list_eq_of_getD _ _ 0 ?_ ?_
  · rw [ifftRec_length m _ (by rw [hflen]; exact hl), hflen]
  · intro j hjlen
    rw [ifftRec_length m _ (by rw [hflen]; exact hl), hflen] at hjlen
    rw [ifftRec_entry m (fftRec l) (by rw [hflen]; exact hl) (by rw [hflen]; exact hjlen)]
    rw [show (fftRec l).length = l.length from hflen]
    have step1 : ∀ k ∈ Finset.range l.length,
        (fftRec l).getD k 0 * ((omegaC l.length)⁻¹) ^ (j * k) =
          ∑ i in Finset.range l.length,
            l.getD i 0 * (omegaC l.length ^ ((i : ℤ) - (j : ℤ))) ^ k := by
      intro k hk
      rw [fftRec_getD m l hl (Finset.mem_range.mp hk), dftVal, Finset.sum_mul]
      refine Finset.sum_congr rfl fun i hi => ?_
      rw [mul_assoc]
      congr 1
      rw [pow_mul, pow_mul, ← mul_pow]
      congr 1
      rw [zpow_sub₀ (omegaC_ne_zero _), zpow_natCast, zpow_natCast, inv_pow,
        div_eq_mul_inv]
    rw [Finset.sum_congr rfl step1, Finset.sum_comm]
    have step2 : ∀ i ∈ Finset.range l.length,
        (∑ k in Finset.range l.length,
          l.getD i 0 * (omegaC l.length ^ ((i : ℤ) - (j : ℤ))) ^ k) =
          l.getD i 0 *
            (if (l.length : ℤ) ∣ ((i : ℤ) - (j : ℤ)) then (l.length : ℂ) else 0) := by
      intro i hi
      rw [← Finset.mul_sum, omegaC_orthogonality l.length hn1 ((i : ℤ) - (j : ℤ))]
    rw [Finset.sum_congr rfl step2]
    rw [Finset.sum_eq_single j]
    · rw [if_pos (by simp), mul_div_cancel_right₀ _ hnC]
    · intro i hi hne
      have hi' := Finset.mem_range.mp hi
      rw [if_neg, mul_zero]
      intro hdvd
      rcases lt_trichotomy ((i : ℤ) - (j : ℤ)) 0 with hlt | heq | hgt
      · have hdvd2 : (l.length : ℤ) ∣ ((j : ℤ) - (i : ℤ)) := by
          have hneg := dvd_neg.mpr hdvd
          rwa [neg_sub] at hneg
        have h5 := Int.le_of_dvd (by omega : (0 : ℤ) < (j : ℤ) - (i : ℤ)) hdvd2
        omega
      · exact hne (by omega)
      · have h5 := Int.le_of_dvd (by omega) hdvd
        omega
    · intro habs
      exact absurd (Finset.mem_range.mpr hjlen) habs

/-- C4: on a power-of-two-length buffer, `fft_recursive` returns sequences of
length ≤ 1 unchanged, and otherwise combines the recursively transformed
even- and odd-indexed halves with the twiddle factors
`W = (cos(-2πk/n), sin(-2πk/n))`: slot `k` gets `even[k] + W·odd[k]` and slot
`k + n/2` gets `even[k] − W·odd[k]`. -/
theorem spec_C4 (l : List ℂ) (m : ℕ) (hl : l.length = 2 ^ m) :
    (l.length ≤ 1 → fftRec l = l) ∧
    ∀ k, k < l.length / 2 →
      (fftRec l).getD k 0 =
        (fftRec (evens l)).getD k 0 + twiddle l.length k * (fftRec (odds l)).getD k 0 ∧
      (fftRec l).getD (k + l.length / 2) 0 =
        (fftRec (evens l)).getD k 0 - twiddle l.length k * (fftRec (odds l)).getD k 0 := by
  refine ⟨fftRec_of_le_one l, fun k hk => ?_⟩
  have h2 : 2 ≤ l.length := by omega
  rw [fftRec_of_ge_two l h2]
  exact ⟨fftCombine_getD_lt _ _ _ hk, fftCombine_getD_ge _ _ _ hk⟩

/-- C4 witness: the butterfly identities at the concrete buffer `[1, 2]`. -/
theorem spec_C4_witness :
    (([(1 : ℂ), 2]).length ≤ 1 → fftRec [(1 : ℂ), 2] = [(1 : ℂ), 2]) ∧
    ∀ k, k < ([(1 : ℂ), 2]).length / 2 →
      (fftRec [(1 : ℂ), 2]).getD k 0 =
        (fftRec (evens [(1 : ℂ), 2])).getD k 0 +
          twiddle ([(1 : ℂ), 2]).length k * (fftRec (odds [(1 : ℂ), 2])).getD k 0 ∧
      (fftRec [(1 : ℂ), 2]).getD (k + ([(1 : ℂ), 2]).length / 2) 0 =
        (fftRec (evens [(1 : ℂ), 2])).getD k 0 -
          twiddle ([(1 : ℂ), 2]).length k * (fftRec (odds [(1 : ℂ), 2])).getD k 0 :=
  spec_C4 [(1 : ℂ), 2] 1 rfl

/-- C5: `ifft_recursive` equals conjugate → `fft_recursive` → conjugate →
scale by `1/n` (the `n ≤ 1` early return coincides with this description),
and `ifft_recursive` after `fft_recursive` reconstructs the input exactly
over idealized real arithmetic. -/
theorem spec_C5 (l : List ℂ) (m : ℕ) (hl : l.length = 2 ^ m) :
    ifftRec l =
      ((fftRec (l.map fun z => (starRingEnd ℂ) z)).map fun z => (starRingEnd ℂ) z).map
        (fun z => z / (l.length : ℂ)) ∧
    ifftRec (fftRec l) = l := by
  refine ⟨?_, ifft_fft_roundtrip m l hl⟩
  rcases Nat.lt_or_ge l.length 2 with h2 | h2
  · have h1 : l.length = 1 := by
      have := Nat.one_le_two_pow (n := m)
      omega
    obtain ⟨x, rfl⟩ := List.length_eq_one.mp h1
    rw [ifftRec, if_pos (by simp)]
    rw [show ([x].map fun z => (starRingEnd ℂ) z) = [(starRingEnd ℂ) x] from rfl]
    rw [fftRec_of_le_one _ (by simp)]
    simp
  · rw [ifftRec, if_neg (by omega)]
    rw [List.map_map]
    rw [show (l.map fun z => (⟨z.re, -z.im⟩ : ℂ)) = l.map fun z => (starRingEnd ℂ) z from
      List.map_congr_left fun z _ => mk_re_neg_im z]
    refine List.map_congr_left fun z _ => ?_
    simpa using mk_conj_div z l.length

/-- C5 witness: the description and the round trip at the buffer `[1]`. -/
theorem spec_C5_witness :
    ifftRec [(1 : ℂ)] =
      ((fftRec ([(1 : ℂ)].map fun z => (starRingEnd ℂ) z)).map fun z =>
        (starRingEnd ℂ) z).map (fun z => z / (([(1 : ℂ)]).length : ℂ)) ∧
    ifftRec (fftRec [(1 : ℂ)]) = [(1 : ℂ)] :=
  spec_C5 [(1 : ℂ)] 0 rfl

/-- C8 counterexample: the claim asserts `compute_fft` fails on an empty
signal, but the code checks only for `NULL` and returns a length-1 spectrum
for an empty signal. -/
theorem spec_C8_counterexample : (compute_fft (some sigEmpty)).isSome = true := by
  rw [compute_fft_some]
  rfl

/-- C8 (amended): `compute_fft` fails only on a null input; a non-null Signal
(empty included) always produces a Spectrum whose length is a power of two
`≥` the Signal's length (for an empty signal the length is 1). -/
theorem spec_C8 (s : Signal) :
    compute_fft none = none ∧
    ∃ res, compute_fft (some s) = some res ∧ (∃ k, res.length = 2 ^ k) ∧
      s.data.length ≤ res.length := by
  refine ⟨rfl, ⟨_, compute_fft_some s, ?_, ?_⟩⟩
  · exact next_power_of_2_pow s.data.length
  · exact next_power_of_2_ge s.data.length

/-! ## The FFT-based convolution equals the direct convolution -/

theorem cpad_length (l : List ℝ) (n : ℕ) (h : l.length ≤ n) : (cpad l n).length = n := by
  simp [cpad]
  omega

theorem cpad_getD (l : List ℝ) (n p : ℕ) :
    (cpad l n).getD p 0 = ((l.getD p 0 : ℝ) : ℂ) := by
  rcases Nat.lt_or_ge p l.length with h | h
  · rw [cpad, List.getD_append _ _ _ _ (by simpa using h)]
    rw [List.getD_eq_getElem _ _ (by simpa using h), List.getElem_map,
      ← List.getD_eq_getElem _ 0 h]
  · rw [List.getD_eq_default _ _ h]
    rw [cpad, List.getD_append_right _ _ _ _ (by simpa using h)]
    rcases Nat.lt_or_ge (p - l.length) (n - l.length) with h3 | h3
    · rw [List.getD_eq_getElem _ _ (by simpa using h3), List.getElem_replicate]
      simp
    · rw [List.getD_eq_default _ _ (by simpa using h3)]
      simp

theorem zipWith_mul_fft_length (m : ℕ) (A B : List ℂ) (hA : A.length = 2 ^ m)
    (hB : B.length = 2 ^ m) :
    (List.zipWith (· * ·) (fftRec A) (fftRec B)).length = 2 ^ m := by
  rw [List.length_zipWith, fftRec_length m A hA, fftRec_length m B hB, hA, hB]
  simp

theorem zipWith_mul_fft_getD (m : ℕ) (A B : List ℂ) (hA : A.length = 2 ^ m)
    (hB : B.length = 2 ^ m) {k : ℕ} (hk : k < 2 ^ m) :
    (List.zipWith (· * ·) (fftRec A) (fftRec B)).getD k 0 = dftVal A k * dftVal B k := by
  have hlen := zipWith_mul_fft_length m A B hA hB
  rw [List.getD_eq_getElem _ _ (by omega), List.getElem_zipWith]
  rw [← List.getD_eq_getElem _ 0 (by rw [fftRec_length m A hA]; omega),
    ← List.getD_eq_getElem _ 0 (by rw [fftRec_length m B hB]; omega)]
  rw [fftRec_getD m A hA (by omega), fftRec_getD m B hB (by omega)]

theorem int_dvd_small (F : ℕ) (d : ℤ) (h1 : -(F : ℤ) < d) (h2 : d < 2 * F)
    (hdvd : (F : ℤ) ∣ d) : d = 0 ∨ d = F := by
  have hF : (1 : ℤ) ≤ F := by omega
  obtain ⟨c, hc⟩ := hdvd
  rcases lt_trichotomy c 0 with h | h | h
  · exfalso
    have : d ≤ -F := by
      rw [hc]
      nlinarith
    omega
  · left
    simp [hc, h]
  · rcases eq_or_lt_of_le (by omega : (1 : ℤ) ≤ c) with he | hgt
    · right
      rw [hc, ← he, mul_one]
    · exfalso
      have : 2 * (F : ℤ) ≤ d := by
        rw [hc]
        nlinarith
      omega

theorem q0_dvd (F j p : ℕ) (hF : 1 ≤ F) (hj : j < F) (hp : p < F) :
    (F : ℤ) ∣ ((p : ℤ) + (((j + F - p) % F : ℕ) : ℤ) - (j : ℤ)) := by
  rcases le_or_lt p j with hpj | hpj
  · have hq0 : (j + F - p) % F = j - p := by
      rw [show j + F - p = (j - p) + F from by omega, Nat.add_mod_right,
        Nat.mod_eq_of_lt (by omega)]
    rw [hq0]
    exact ⟨0, by omega⟩
  · have hq0 : (j + F - p) % F = j + F - p := Nat.mod_eq_of_lt (by omega)
    rw [hq0]
    exact ⟨1, by omega⟩

theorem qne_not_dvd (F j p q : ℕ) (_hF : 1 ≤ F) (hj : j < F) (hp : p < F) (hq : q < F)
    (hne : q ≠ (j + F - p) % F) : ¬ (F : ℤ) ∣ ((p : ℤ) + (q : ℤ) - (j : ℤ)) := by
  intro hdvd
  rcases int_dvd_small F _ (by omega) (by omega) hdvd with h0 | hFe
  · apply hne
    rw [show j + F - p = q + F from by omega, Nat.add_mod_right, Nat.mod_eq_of_lt (by omega)]
  · apply hne
    rw [show j + F - p = q from by omega]
    exact (Nat.mod_eq_of_lt hq).symm

/-- Pointwise spectral multiplication of the two forward transforms followed
by the inverse transform computes the circular convolution of the padded
buffers. -/
theorem fftconv_circ_entry (m : ℕ) (A B : List ℂ) (hA : A.length = 2 ^ m)
    (hB : B.length = 2 ^ m) {j : ℕ} (hj : j < 2 ^ m) :
    (ifftRec (List.zipWith (· * ·) (fftRec A) (fftRec B))).getD j 0 =
      ∑ p in Finset.range (2 ^ m), A.getD p 0 * B.getD ((j + 2 ^ m - p) % 2 ^ m) 0 := by
  have hF1 : 1 ≤ 2 ^ m := Nat.one_le_two_pow
  have hFC : ((2 ^ m : ℕ) : ℂ) ≠ 0 := Nat.cast_ne_zero.mpr (by omega)
  have hzlen : (List.zipWith (· * ·) (fftRec A) (fftRec B)).length = 2 ^ m :=
    zipWith_mul_fft_length m A B hA hB
  rw [ifftRec_entry m _ hzlen (by rw [hzlen]; exact hj), hzlen]
  have step1 : ∀ k ∈ Finset.range (2 ^ m),
      (List.zipWith (· * ·) (fftRec A) (fftRec B)).getD k 0 *
        ((omegaC (2 ^ m))⁻¹) ^ (j * k) =
        ∑ p in Finset.range (2 ^ m), ∑ q in Finset.range (2 ^ m),
          A.getD p 0 * B.getD q 0 *
            (omegaC (2 ^ m) ^ ((p : ℤ) + (q : ℤ) - (j : ℤ))) ^ k := by
    intro k hk
    rw [zipWith_mul_fft_getD m A B hA hB (Finset.mem_range.mp hk), dftVal, dftVal, hA, hB]
    rw [Finset.sum_mul_sum, Finset.sum_mul]
    refine Finset.sum_congr rfl fun p hp => ?_
    rw [Finset.sum_mul]
    refine Finset.sum_congr rfl fun q hq => ?_
    rw [show A.getD p 0 * omegaC (2 ^ m) ^ (p * k) *
        (B.getD q 0 * omegaC (2 ^ m) ^ (q * k)) * ((omegaC (2 ^ m))⁻¹) ^ (j * k) =
        A.getD p 0 * B.getD q 0 *
          (omegaC (2 ^ m) ^ (p * k) * omegaC (2 ^ m) ^ (q * k) *
            ((omegaC (2 ^ m))⁻¹) ^ (j * k)) from by ring]
    congr 1
    rw [← pow_add, inv_pow, ← zpow_natCast (omegaC (2 ^ m)) (p * k + q * k),
      ← zpow_natCast (omegaC (2 ^ m)) (j * k), ← zpow_neg,
      ← zpow_add₀ (omegaC_ne_zero _)]
    rw [← zpow_natCast (omegaC (2 ^ m) ^ ((p : ℤ) + (q : ℤ) - (j : ℤ))) k, ← zpow_mul]
    congr 1
    push_cast
    ring
  rw [Finset.sum_congr rfl step1, Finset.sum_comm]
  have step2 : ∀ p ∈ Finset.range (2 ^ m),
      (∑ k in Finset.range (2 ^ m), ∑ q in Finset.range (2 ^ m),
        A.getD p 0 * B.getD q 0 *
          (omegaC (2 ^ m) ^ ((p : ℤ) + (q : ℤ) - (j : ℤ))) ^ k) =
        A.getD p 0 * B.getD ((j + 2 ^ m - p) % 2 ^ m) 0 * ((2 ^ m : ℕ) : ℂ) := by
    intro p hp
    have hp' := Finset.mem_range.mp hp
    rw [Finset.sum_comm]
    have inner : ∀ q ∈ Finset.range (2 ^ m),
        (∑ k in Finset.range (2 ^ m),
          A.getD p 0 * B.getD q 0 *
            (omegaC (2 ^ m) ^ ((p : ℤ) + (q : ℤ) - (j : ℤ))) ^ k) =
          A.getD p 0 * B.getD q 0 *
            (if ((2 ^ m : ℕ) : ℤ) ∣ ((p : ℤ) + (q : ℤ) - (j : ℤ)) then ((2 ^ m : ℕ) : ℂ)
            else 0) := by
      intro q hq
      rw [← Finset.mul_sum, omegaC_orthogonality (2 ^ m) hF1 _]
    rw [Finset.sum_congr rfl inner]
    rw [Finset.sum_eq_single ((j + 2 ^ m - p) % 2 ^ m)]
    · rw [if_pos (q0_dvd (2 ^ m) j p hF1 hj hp')]
    · intro q hq hne
      rw [if_neg (qne_not_dvd (2 ^ m) j p q hF1 hj hp' (Finset.mem_range.mp hq) hne),
        mul_zero]
    · intro habs
      exact absurd (Finset.mem_range.mpr (Nat.mod_lt _ (by omega))) habs
  rw [Finset.sum_congr rfl step2, ← Finset.sum_mul, mul_div_cancel_right₀ _ hFC]

/-- Below the linear-convolution length `N+M−1`, the circular convolution of
the zero-padded buffers has no wrap-around contribution: it equals the plain
linear convolution sum. -/
theorem fftconv_entry_eq_linconv (a b : List ℝ) (m : ℕ)
    (hN : 1 ≤ a.length) (hM : 1 ≤ b.length)
    (hF : a.length + b.length - 1 ≤ 2 ^ m) {j : ℕ} (hj : j < a.length + b.length - 1) :
    (ifftRec (List.zipWith (· * ·)
        (fftRec (cpad a (2 ^ m))) (fftRec (cpad b (2 ^ m))))).getD j 0 =
      ((∑ k in Finset.range (j + 1), a.getD k 0 * b.getD (j - k) 0 : ℝ) : ℂ) := by
  have hALen : (cpad a (2 ^ m)).length = 2 ^ m := cpad_length a _ (by omega)
  have hBLen : (cpad b (2 ^ m)).length = 2 ^ m := cpad_length b _ (by omega)
  rw [fftconv_circ_entry m _ _ hALen hBLen (by omega)]
  have hterm : ∀ p ∈ Finset.range (2 ^ m),
      (cpad a (2 ^ m)).getD p 0 * (cpad b (2 ^ m)).getD ((j + 2 ^ m - p) % 2 ^ m) 0 =
        ((a.getD p 0 * b.getD ((j + 2 ^ m - p) % 2 ^ m) 0 : ℝ) : ℂ) := by
    intro p _
    rw [cpad_getD, cpad_getD, Complex.ofReal_mul]
  rw [Finset.sum_congr rfl hterm]
  have hreal : (∑ p in Finset.range (2 ^ m),
      a.getD p 0 * b.getD ((j + 2 ^ m - p) % 2 ^ m) 0) =
      ∑ k in Finset.range (j + 1), a.getD k 0 * b.getD (j - k) 0 := by
    have hz : ∀ p ∈ Finset.range (2 ^ m), p ∉ Finset.range (j + 1) →
        a.getD p 0 * b.getD ((j + 2 ^ m - p) % 2 ^ m) 0 = 0 := by
      intro p hpF hpj
      have h1 := Finset.mem_range.mp hpF
      have h2 : j < p := by
        simp only [Finset.mem_range, not_lt] at hpj
        omega
      have hidx : (j + 2 ^ m - p) % 2 ^ m = j + 2 ^ m - p := Nat.mod_eq_of_lt (by omega)
      rw [hidx]
      rcases Nat.lt_or_ge p a.length with hpa | hpa
      · rw [List.getD_eq_default b _ (by omega : b.length ≤ j + 2 ^ m - p), mul_zero]
      · rw [List.getD_eq_default a _ hpa, zero_mul]
    rw [← Finset.sum_subset (Finset.range_subset.mpr (by omega : j + 1 ≤ 2 ^ m)) hz]
    refine Finset.sum_congr rfl fun p hp => ?_
    have hp' := Finset.mem_range.mp hp
    rw [show (j + 2 ^ m - p) % 2 ^ m = j - p from by
      rw [show j + 2 ^ m - p = (j - p) + 2 ^ m from by omega, Nat.add_mod_right]
      exact Nat.mod_eq_of_lt (by omega)]
  rw [← hreal]
  norm_cast

/-- C1: the FFT-based convolution agrees element-wise with the direct linear
convolution, exactly over idealized real arithmetic (so the 1e-9 bound of the
specification holds with slack). -/
theorem spec_C1 (a b : Signal) (r s : Signal)
    (hN : 1 ≤ a.data.length) (hM : 1 ≤ b.data.length)
    (hr : convolve (some a) (some b) = some r)
    (hs : convolve_fft (some a) (some b) = some s) :
    s.data = r.data := by
  rw [convolve_some a b (by omega)] at hr
  rw [convolve_fft_some a b (by omega)] at hs
  injection hr with hr
  injection hs with hs
  subst hr hs
  refine List.map_congr_left fun i hi => ?_
  have hi' : i < a.data.length + b.data.length - 1 := by
    simpa using List.mem_range.mp hi
  obtain ⟨mp, hmp⟩ := next_power_of_2_pow (a.data.length + b.data.length - 1)
  rw [hmp]
  rw [fftconv_entry_eq_linconv a.data b.data mp hN hM
    (by rw [← hmp]; exact next_power_of_2_ge _) hi']
  rw [Complex.ofReal_re, convEntry_eq_sum]

/-- C1 witness: two concrete one-sample signals, compared through the
theorem. -/
theorem spec_C1_witness :
    Option.map Signal.data (convolve_fft (some sigX) (some sigY)) =
      Option.map Signal.data (convolve (some sigX) (some sigY)) := by
  have hr := convolve_some sigX sigY (by norm_num [sigX, sigY])
  have hs := convolve_fft_some sigX sigY (by norm_num [sigX, sigY])
  rw [hr, hs]
  simp only [Option.map_some']
  rw [Option.some_inj]
  exact spec_C1 sigX sigY _ _ (by norm_num [sigX]) (by norm_num [sigY]) hr hs
